import Mathlib

/-!
Verification of `niralysis/calculate_differences.py`: the per-channel
delta-computation scan with gap bridging, the windowed threshold
segmenter, and the range aggregation with last-wins row keys.

Coordinate values (floats in the source, used only with subtraction,
comparison against zero, and summation) are modelled as integers `ℤ`.
A pandas DataFrame is modelled column-major as a list of named columns;
a delta cell that no branch assigns (left NaN in the source) is `none`.
-/

namespace Niralysis

/-- A coordinate table: one named column of values per keypoint channel,
column-major, modelling the pandas DataFrame handed to the delta scan. -/
abbrev Table := List (String × List ℤ)

/-- Number of rows of the table (`len(x_y_data)`); zero when there are no
columns, matching that a pandas frame with no columns also has no cells. -/
def nRows (t : Table) : Nat :=
  match t with
  | [] => 0
  | c :: _ => c.2.length

/-- Models `x_y_data.empty`: true exactly when the frame has no cells. -/
def isEmptyTable (t : Table) : Bool := nRows t == 0

/-- Source `get_distance_of_coordinate_between_two_time_stamps`. -/
def get_distance_of_coordinate_between_two_time_stamps (coordinate1 coordinate2 : ℤ) : ℤ :=
  coordinate2 - coordinate1

/-- The inner per-channel loop of
`get_table_of_deltas_between_time_stamps_in_all_kps`: starting at
transition index `i` with `fuel` transitions left, carrying
`loc_of_last_timestamp_before_zero` (`lastLoc`) and
`counter_of_zeros_in_a_row` (`zeroCount`).  Returns the list of delta
cells (in transition order, `none` for a cell no branch assigns) and the
association list of recorded zero-run diagnostics, keyed by transition. -/
def scanKp (v : List ℤ) : Nat → Nat → Nat → Nat → List (Option ℤ) × List (Nat × Nat)
  | 0, _, _, _ => ([], [])
  | fuel + 1, i, lastLoc, zeroCount =>
    let a := v.getD i 0
    let b := v.getD (i + 1) 0
    if 0 < a ∧ 0 < b then
      let r := scanKp v fuel (i + 1) lastLoc zeroCount
      (some (b - a) :: r.1, r.2)
    else if a = 0 ∧ 0 < b then
      let r := scanKp v fuel (i + 1) lastLoc 0
      (some (b - v.getD lastLoc 0) :: r.1, (i, zeroCount) :: r.2)
    else if a = 0 ∧ b = 0 then
      let r := scanKp v fuel (i + 1) lastLoc (zeroCount + 1)
      (some 0 :: r.1, r.2)
    else if 0 < a ∧ b = 0 then
      let r := scanKp v fuel (i + 1) i 1
      (some 0 :: r.1, r.2)
    else
      let r := scanKp v fuel (i + 1) lastLoc zeroCount
      (none :: r.1, r.2)

/-- Source `get_table_of_deltas_between_time_stamps_in_all_kps`: raises
(models as `.error`) on an empty frame, otherwise runs the per-channel
scan over transitions `0 .. nRows - 2` for every column. -/
def get_table_of_deltas_between_time_stamps_in_all_kps (t : Table) :
    Except String (List (String × List (Option ℤ))) :=
  if isEmptyTable t then .error "The input DataFrame is empty."
  else .ok (t.map fun c => (c.1, (scanKp c.2 (nRows t - 1) 0 0 0).1))

/-- The per-channel zero-run diagnostic dictionaries
(`counter_of_all_zeros_in_a_row_for_all_kps`) built by the same scan. -/
def counter_of_all_zeros_in_a_row_for_all_kps (t : Table) :
    List (String × List (Nat × Nat)) :=
  t.map fun c => (c.1, (scanKp c.2 (nRows t - 1) 0 0 0).2)

/-- Python slice sum `sum(v[i:j])` (clipped at both ends). -/
def sumSlice (v : List ℤ) (i j : Nat) : ℤ := ((v.drop i).take (j - i)).sum

/-- Source `get_start_to_end_list`: for every start `i` in
`[0, len values_x)` and window length `j` in `[0, 30)`, emit `(i, i + j)`
when either reference slice sum exceeds the threshold, in loop order. -/
def get_start_to_end_list (values_x values_y : List ℤ) (threshold : ℤ) :
    List (Nat × Nat) :=
  (List.range values_x.length).flatMap fun i =>
    (List.range 30).filterMap fun j =>
      if sumSlice values_x i (i + j) > threshold ∨ sumSlice values_y i (i + j) > threshold
      then some (i, i + j) else none

/-- Models a pandas `df.at[k, col] = v` write into a single-column frame:
overwrite the row keyed `k` when present, else append a new row. -/
def upsert {α : Type} (m : List (Nat × α)) (k : Nat) (v : α) : List (Nat × α) :=
  if m.any (fun p => p.1 == k) then m.map (fun p => if p.1 == k then (k, v) else p)
  else m ++ [(k, v)]

/-- Source `create_timestamps_column`: one labelled row per range, keyed
by the range's start index, later ranges overwriting earlier ones. -/
def create_timestamps_column (ranges : List (Nat × Nat)) : List (Nat × String) :=
  ranges.foldl (fun m p => upsert m p.1 (toString p.1 ++ "-" ++ toString p.2)) []

/-- Source `create_column_of_sum_for_kp_in_range`: one sum per range, the
sum of the channel's deltas over `[start, end)`, keyed by start index. -/
def create_column_of_sum_for_kp_in_range (delta_kp_column : List ℤ)
    (ranges : List (Nat × Nat)) : List (Nat × ℤ) :=
  ranges.foldl (fun m p => upsert m p.1 (sumSlice delta_kp_column p.1 p.2)) []

/-- Modelled from the spec: the `(last_known_good_index, zero_run_length)`
gap state held before transition `i`, per the spec's four-branch scan
(init `(0, 0)`; branch updates as in the table of section 4.1). -/
def gapStateAt (v : List ℤ) : Nat → Nat × Nat
  | 0 => (0, 0)
  | i + 1 =>
    if 0 < v.getD i 0 ∧ 0 < v.getD (i + 1) 0 then gapStateAt v i
    else if v.getD i 0 = 0 ∧ 0 < v.getD (i + 1) 0 then ((gapStateAt v i).1, 0)
    else if v.getD i 0 = 0 ∧ v.getD (i + 1) 0 = 0 then
      ((gapStateAt v i).1, (gapStateAt v i).2 + 1)
    else if 0 < v.getD i 0 ∧ v.getD (i + 1) 0 = 0 then (i, 1)
    else gapStateAt v i

/-- Modelled from the spec: the delta the four-branch rule assigns to
transition `i` (total on nonnegative inputs; both zero branches give 0). -/
def deltaRuleAt (v : List ℤ) (i : Nat) : ℤ :=
  if 0 < v.getD i 0 ∧ 0 < v.getD (i + 1) 0 then v.getD (i + 1) 0 - v.getD i 0
  else if v.getD i 0 = 0 ∧ 0 < v.getD (i + 1) 0 then
    v.getD (i + 1) 0 - v.getD (gapStateAt v i).1 0
  else 0

/-- The guard of the `k`-th branch of the delta scan, in source order. -/
def branchGuard (k : Fin 4) (a b : ℤ) : Prop :=
  match k with
  | ⟨0, _⟩ => 0 < a ∧ 0 < b
  | ⟨1, _⟩ => a = 0 ∧ 0 < b
  | ⟨2, _⟩ => a = 0 ∧ b = 0
  | ⟨3, _⟩ => 0 < a ∧ b = 0
  | ⟨_ + 4, _⟩ => False

/-! ## Helper lemmas: the delta scan refines the spec's four-branch rule -/

lemma getD_nonneg (v : List ℤ) (hv : ∀ q ∈ v, 0 ≤ q) (n : Nat) : 0 ≤ v.getD n 0 := by
  rcases lt_or_le n v.length with h | h
  · rw [List.getD_eq_getElem _ _ h]
    exact hv _ (List.getElem_mem h)
  · rw [List.getD_eq_default _ _ h]

lemma scanKp_fst_length (v : List ℤ) :
    ∀ fuel i s1 s2, (scanKp v fuel i s1 s2).1.length = fuel := by
  intro fuel
  induction fuel with
  | zero => intro i s1 s2; rfl
  | succ fuel ih =>
    intro i s1 s2
    simp only [scanKp]
    split_ifs <;> simp [ih]

lemma gapStateAt_zero (v : List ℤ) : gapStateAt v 0 = (0, 0) := rfl

lemma scanKp_fst_get (v : List ℤ) (hv : ∀ q ∈ v, 0 ≤ q) :
    ∀ fuel i k s1 s2, gapStateAt v i = (s1, s2) → k < fuel →
      (scanKp v fuel i s1 s2).1[k]? = some (some (deltaRuleAt v (i + k))) := by
  intro fuel
  induction fuel with
  | zero => intro i k s1 s2 _ hk; omega
  | succ fuel ih =>
    intro i k s1 s2 hst hk
    have ha := getD_nonneg v hv i
    have hb := getD_nonneg v hv (i + 1)
    rcases k with _ | k
    · simp only [scanKp, deltaRuleAt, Nat.add_zero]
      split_ifs with h1 h2 h3 h4
      · simp
      · simp [hst]
      · simp
      · simp
      · omega
    · have hfuel : k < fuel := by omega
      have heq : i + (k + 1) = (i + 1) + k := by omega
      rw [heq]
      simp only [scanKp]
      by_cases h1 : 0 < v.getD i 0 ∧ 0 < v.getD (i + 1) 0
      · rw [if_pos h1]
        have hst2 : gapStateAt v (i + 1) = (s1, s2) := by
          simp only [gapStateAt]; rw [if_pos h1, hst]
        simpa using ih (i + 1) k s1 s2 hst2 hfuel
      · rw [if_neg h1]
        by_cases h2 : v.getD i 0 = 0 ∧ 0 < v.getD (i + 1) 0
        · rw [if_pos h2]
          have hst2 : gapStateAt v (i + 1) = (s1, 0) := by
            simp only [gapStateAt]; rw [if_neg h1, if_pos h2, hst]
          simpa using ih (i + 1) k s1 0 hst2 hfuel
        · rw [if_neg h2]
          by_cases h3 : v.getD i 0 = 0 ∧ v.getD (i + 1) 0 = 0
          · rw [if_pos h3]
            have hst2 : gapStateAt v (i + 1) = (s1, s2 + 1) := by
              simp only [gapStateAt]; rw [if_neg h1, if_neg h2, if_pos h3, hst]
            simpa using ih (i + 1) k s1 (s2 + 1) hst2 hfuel
          · rw [if_neg h3]
            by_cases h4 : 0 < v.getD i 0 ∧ v.getD (i + 1) 0 = 0
            · rw [if_pos h4]
              have hst2 : gapStateAt v (i + 1) = (i, 1) := by
                simp only [gapStateAt]; rw [if_neg h1, if_neg h2, if_neg h3, if_pos h4]
              simpa using ih (i + 1) k i 1 hst2 hfuel
            · omega

lemma scanKp_snd_lookup (v : List ℤ) :
    ∀ fuel i s1 s2, gapStateAt v i = (s1, s2) → ∀ j,
      List.lookup j (scanKp v fuel i s1 s2).2 =
        if i ≤ j ∧ j < i + fuel ∧ v.getD j 0 = 0 ∧ 0 < v.getD (j + 1) 0
        then some (gapStateAt v j).2 else none := by
  intro fuel
  induction fuel with
  | zero =>
    intro i s1 s2 _ j
    rw [if_neg (by omega)]
    rfl
  | succ fuel ih =>
    intro i s1 s2 hst j
    simp only [scanKp]
    by_cases h1 : 0 < v.getD i 0 ∧ 0 < v.getD (i + 1) 0
    · rw [if_pos h1]
      have hst2 : gapStateAt v (i + 1) = (s1, s2) := by
        simp only [gapStateAt]; rw [if_pos h1, hst]
      show List.lookup j (scanKp v fuel (i + 1) s1 s2).2 = _
      rw [ih (i + 1) s1 s2 hst2 j]
      by_cases hj : j = i
      · subst hj; split_ifs <;> first | rfl | omega
      · split_ifs <;> first | rfl | omega
    · rw [if_neg h1]
      by_cases h2 : v.getD i 0 = 0 ∧ 0 < v.getD (i + 1) 0
      · rw [if_pos h2]
        show List.lookup j ((i, s2) :: (scanKp v fuel (i + 1) s1 0).2) = _
        have hst2 : gapStateAt v (i + 1) = (s1, 0) := by
          simp only [gapStateAt]; rw [if_neg h1, if_pos h2, hst]
        by_cases hj : j = i
        · subst hj
          rw [if_pos ⟨le_refl j, by omega, h2.1, h2.2⟩, hst]
          simp [List.lookup_cons]
        · rw [List.lookup_cons]
          have hbeq : (j == i) = false := beq_false_of_ne hj
          rw [hbeq]
          show List.lookup j (scanKp v fuel (i + 1) s1 0).2 = _
          rw [ih (i + 1) s1 0 hst2 j]
          split_ifs <;> first | rfl | omega
      · rw [if_neg h2]
        by_cases h3 : v.getD i 0 = 0 ∧ v.getD (i + 1) 0 = 0
        · rw [if_pos h3]
          have hst2 : gapStateAt v (i + 1) = (s1, s2 + 1) := by
            simp only [gapStateAt]; rw [if_neg h1, if_neg h2, if_pos h3, hst]
          show List.lookup j (scanKp v fuel (i + 1) s1 (s2 + 1)).2 = _
          rw [ih (i + 1) s1 (s2 + 1) hst2 j]
          by_cases hj : j = i
          · subst hj; split_ifs <;> first | rfl | omega
          · split_ifs <;> first | rfl | omega
        · rw [if_neg h3]
          by_cases h4 : 0 < v.getD i 0 ∧ v.getD (i + 1) 0 = 0
          · rw [if_pos h4]
            have hst2 : gapStateAt v (i + 1) = (i, 1) := by
              simp only [gapStateAt]; rw [if_neg h1, if_neg h2, if_neg h3, if_pos h4]
            show List.lookup j (scanKp v fuel (i + 1) i 1).2 = _
            rw [ih (i + 1) i 1 hst2 j]
            by_cases hj : j = i
            · subst hj; split_ifs <;> first | rfl | omega
            · split_ifs <;> first | rfl | omega
          · rw [if_neg h4]
            have hst2 : gapStateAt v (i + 1) = (s1, s2) := by
              simp only [gapStateAt]; rw [if_neg h1, if_neg h2, if_neg h3, if_neg h4, hst]
            show List.lookup j (scanKp v fuel (i + 1) s1 s2).2 = _
            rw [ih (i + 1) s1 s2 hst2 j]
            by_cases hj : j = i
            · subst hj; split_ifs <;> first | rfl | omega
            · split_ifs <;> first | rfl | omega

/-! ## Helper lemmas: the segmenter -/

lemma mem_get_start_to_end_list (vx vy : List ℤ) (thr : ℤ) (p : Nat × Nat) :
    p ∈ get_start_to_end_list vx vy thr ↔
      ∃ i j, i < vx.length ∧ j < 30 ∧ p = (i, i + j) ∧
        (sumSlice vx i (i + j) > thr ∨ sumSlice vy i (i + j) > thr) := by
  simp only [get_start_to_end_list, List.mem_flatMap, List.mem_filterMap, List.mem_range]
  constructor
  · rintro ⟨i, hi, j, hj, hcond⟩
    split_ifs at hcond with hc
    exact ⟨i, j, hi, hj, (Option.some_inj.mp hcond).symm, hc⟩
  · rintro ⟨i, j, hi, hj, rfl, hc⟩
    exact ⟨i, hi, j, hj, by rw [if_pos hc]⟩

lemma get_start_to_end_list_pairwise (vx vy : List ℤ) (thr : ℤ) :
    List.Pairwise (fun p q : Nat × Nat => p.1 < q.1 ∨ (p.1 = q.1 ∧ p.2 < q.2))
      (get_start_to_end_list vx vy thr) := by
  unfold get_start_to_end_list
  rw [List.pairwise_flatMap]
  have hfst : ∀ i (x : Nat × Nat),
      x ∈ (List.range 30).filterMap (fun j =>
        if sumSlice vx i (i + j) > thr ∨ sumSlice vy i (i + j) > thr
        then some (i, i + j) else none) → x.1 = i ∧ x.2 = i + (x.2 - i) ∧ x.2 - i < 30 := by
    intro i x hx
    rcases List.mem_filterMap.mp hx with ⟨j, hj, hcond⟩
    split_ifs at hcond with hc
    cases Option.some_inj.mp hcond
    refine ⟨rfl, by omega, by simpa using hj⟩
  constructor
  · intro i _
    refine List.Pairwise.filterMap _ ?_ (List.pairwise_lt_range 30)
    intro j j2 hjj b hb b2 hb2
    split_ifs at hb hb2 with hc hc2
    · simp only [Option.mem_def, Option.some_inj] at hb hb2
      subst hb; subst hb2
      right
      exact ⟨rfl, by omega⟩
    all_goals simp at hb hb2
  · refine (List.pairwise_lt_range vx.length).imp ?_
    intro i i2 hii x hx y hy
    left
    rw [(hfst i x hx).1, (hfst i2 y hy).1]
    exact hii

/-! ## Helper lemmas: the aggregation's last-wins row keys -/

lemma lookup_map_replace {α : Type} (k : Nat) (v : α) :
    ∀ m : List (Nat × α), m.any (fun p => p.1 == k) = true →
      List.lookup k (m.map fun p => if p.1 == k then (k, v) else p) = some v := by
  intro m
  induction m with
  | nil => intro h; simp at h
  | cons p m ih =>
    obtain ⟨pk, pv⟩ := p
    intro hany
    by_cases hpk : pk = k
    · subst hpk
      simp [List.lookup_cons]
    · have hpkb : (pk == k) = false := beq_false_of_ne hpk
      have hkpb : (k == pk) = false := beq_false_of_ne (Ne.symm hpk)
      simp only [List.any_cons, hpkb, Bool.false_or] at hany
      simp only [List.map_cons, hpkb, Bool.false_eq_true, if_false, List.lookup_cons, hkpb]
      exact ih hany

lemma lookup_append_single {α : Type} (k : Nat) (v : α) :
    ∀ m : List (Nat × α), m.any (fun p => p.1 == k) = false →
      List.lookup k (m ++ [(k, v)]) = some v := by
  intro m
  induction m with
  | nil => simp [List.lookup_cons]
  | cons p m ih =>
    obtain ⟨pk, pv⟩ := p
    intro hany
    simp only [List.any_cons, Bool.or_eq_false_iff] at hany
    have hkpb : (k == pk) = false := by
      rcases Nat.decEq k pk with hne | heq
      · exact beq_false_of_ne hne
      · rw [heq] at hany
        simpa using hany.1
    simp only [List.cons_append, List.lookup_cons, hkpb]
    exact ih hany.2

lemma lookup_upsert_eq {α : Type} (m : List (Nat × α)) (k : Nat) (v : α) :
    List.lookup k (upsert m k v) = some v := by
  unfold upsert
  split_ifs with hany
  · exact lookup_map_replace k v m hany
  · rw [Bool.not_eq_true] at hany
    exact lookup_append_single k v m hany

lemma lookup_upsert_ne {α : Type} (m : List (Nat × α)) (k k2 : Nat) (v : α)
    (h : k ≠ k2) : List.lookup k2 (upsert m k v) = List.lookup k2 m := by
  have hk2k : (k2 == k) = false := beq_false_of_ne (Ne.symm h)
  unfold upsert
  split_ifs with hany
  · clear hany
    induction m with
    | nil => rfl
    | cons p m ih =>
      obtain ⟨pk, pv⟩ := p
      by_cases hpk : pk = k
      · subst hpk
        simp only [List.map_cons, beq_self_eq_true, if_true, List.lookup_cons, hk2k]
        exact ih
      · have hpkb : (pk == k) = false := beq_false_of_ne hpk
        simp only [List.map_cons, hpkb, Bool.false_eq_true, if_false, List.lookup_cons]
        cases k2 == pk
        · exact ih
        · rfl
  · clear hany
    induction m with
    | nil => simp [List.lookup_cons, hk2k]
    | cons p m ih =>
      obtain ⟨pk, pv⟩ := p
      simp only [List.cons_append, List.lookup_cons]
      cases k2 == pk
      · exact ih
      · rfl

lemma lookup_foldl_upsert {α : Type} (f : Nat → Nat → α) :
    ∀ (ranges : List (Nat × Nat)) (m : List (Nat × α)) (k : Nat),
      List.lookup k (ranges.foldl (fun m p => upsert m p.1 (f p.1 p.2)) m) =
        match (ranges.filter (fun p => p.1 == k)).getLast? with
        | some p => some (f p.1 p.2)
        | none => List.lookup k m := by
  intro ranges
  induction ranges with
  | nil => intro m k; rfl
  | cons p rs ih =>
    obtain ⟨pk, pj⟩ := p
    intro m k
    rw [List.foldl_cons, ih]
    by_cases hpk : pk = k
    · subst hpk
      simp only [List.filter_cons, beq_self_eq_true, if_true]
      cases hfr : rs.filter (fun q => q.1 == pk) with
      | nil =>
        simp only [hfr, List.getLast?_singleton]
        exact lookup_upsert_eq m pk (f pk pj)
      | cons q t =>
        rw [List.getLast?_cons_cons]
        rcases hq : (q :: t).getLast? with _ | r
        · simp at hq
        · rfl
    · have hpkb : (pk == k) = false := beq_false_of_ne hpk
      simp only [List.filter_cons, hpkb, Bool.false_eq_true, if_false]
      cases (rs.filter (fun q => q.1 == k)).getLast? with
      | some q => rfl
      | none => exact lookup_upsert_ne m pk k (f pk pj) hpk

/-! ## Claim theorems -/

/-- C1: for every input table with nonnegative values and every channel, the
delta at each transition `i` follows the spec's four-branch rule with the
per-channel state `(last_known_good_index, zero_run_length)` initialised to
`(0, 0)` (formalised by `deltaRuleAt` and `gapStateAt`), and the current
zero-run length is recorded as the diagnostic for transition `i` exactly
when the bridging branch (`value[i] = 0 < value[i+1]`) fires. -/
theorem delta_table_follows_four_branch_rule
    (t : Table) (res : List (String × List (Option ℤ)))
    (hres : get_table_of_deltas_between_time_stamps_in_all_kps t = .ok res)
    (hpos : ∀ c ∈ t, ∀ q ∈ c.2, 0 ≤ q)
    (k : Nat) (kp : String) (v : List ℤ) (hk : t[k]? = some (kp, v))
    (hlen : v.length = nRows t) (i : Nat) (hi : i < nRows t - 1) :
    (∃ dv, res[k]? = some (kp, dv) ∧ dv[i]? = some (some (deltaRuleAt v i))) ∧
    ∃ dl, (counter_of_all_zeros_in_a_row_for_all_kps t)[k]? = some (kp, dl) ∧
      List.lookup i dl =
        (if v.getD i 0 = 0 ∧ 0 < v.getD (i + 1) 0
         then some (gapStateAt v i).2 else none) := by
  have hv : ∀ q ∈ v, 0 ≤ q :=
    hpos (kp, v) (List.mem_iff_getElem?.mpr ⟨k, hk⟩)
  have hne : isEmptyTable t = false := by
    by_cases he : isEmptyTable t
    · unfold get_table_of_deltas_between_time_stamps_in_all_kps at hres
      rw [if_pos he] at hres
      cases hres
    · simpa using he
  have hres2 : res = t.map fun c => (c.1, (scanKp c.2 (nRows t - 1) 0 0 0).1) := by
    unfold get_table_of_deltas_between_time_stamps_in_all_kps at hres
    rw [hne] at hres
    simp only [Bool.false_eq_true, if_false] at hres
    injection hres with h
    exact h.symm
  constructor
  · refine ⟨(scanKp v (nRows t - 1) 0 0 0).1, ?_, ?_⟩
    · rw [hres2, List.getElem?_map, hk]
      rfl
    · simpa using scanKp_fst_get v hv (nRows t - 1) 0 i 0 0 rfl (by omega)
  · refine ⟨(scanKp v (nRows t - 1) 0 0 0).2, ?_, ?_⟩
    · unfold counter_of_all_zeros_in_a_row_for_all_kps
      rw [List.getElem?_map, hk]
      rfl
    · rw [scanKp_snd_lookup v (nRows t - 1) 0 0 0 rfl i]
      by_cases hC : v.getD i 0 = 0 ∧ 0 < v.getD (i + 1) 0
      · rw [if_pos ⟨by omega, by omega, hC.1, hC.2⟩, if_pos hC]
      · rw [if_neg (fun h => hC ⟨h.2.2.1, h.2.2.2⟩), if_neg hC]

/-- Witness for C1 at the concrete table `[("a", [1, 0, 0, 2])]`,
transition 2 (the bridging transition). -/
theorem delta_table_follows_four_branch_rule_witness :
    (∃ dv, ([("a", [some (0:ℤ), some 0, some 1])])[0]? = some ("a", dv) ∧
        dv[2]? = some (some (deltaRuleAt [1, 0, 0, 2] 2))) ∧
    ∃ dl, (counter_of_all_zeros_in_a_row_for_all_kps [("a", [1, 0, 0, 2])])[0]? =
        some ("a", dl) ∧
      List.lookup 2 dl =
        (if List.getD [1, 0, 0, 2] 2 0 = 0 ∧ 0 < List.getD [1, 0, 0, 2] (2 + 1) 0
         then some (gapStateAt [1, 0, 0, 2] 2).2 else none) :=
  delta_table_follows_four_branch_rule [("a", [1, 0, 0, 2])]
    [("a", [some 0, some 0, some 1])] rfl (by decide) 0 "a" [1, 0, 0, 2] rfl rfl 2
    (by decide)

/-- C2 counterexample: on the table `[0, 5, 5, 0, 0, 9]` the code returns the
delta column `[5, 0, 0, 0, 4]`, not `[0, 0, -5, 0, 9]` as claimed (transition
0 bridges against the default index-0 value 0, giving `5 - 0 = 5`, and
transition 4 bridges against the last known good value 5, giving `9 - 5 = 4`). -/
theorem end_to_end_scenario_counterexample :
    get_table_of_deltas_between_time_stamps_in_all_kps [("KP_0_x", [0, 5, 5, 0, 0, 9])] =
      .ok [("KP_0_x", [some 5, some 0, some 0, some 0, some 4])] ∧
    [some (5:ℤ), some 0, some 0, some 0, some 4] ≠
      [some 0, some 0, some (-5), some 0, some 9] :=
  ⟨rfl, by decide⟩

/-- C2 amended: for the single-channel input table `[0, 5, 5, 0, 0, 9]`
(6 steps), delta computation returns the 5-row delta table `[5, 0, 0, 0, 4]`. -/
theorem end_to_end_scenario_amended :
    get_table_of_deltas_between_time_stamps_in_all_kps [("KP_0_x", [0, 5, 5, 0, 0, 9])] =
      .ok [("KP_0_x", [some 5, some 0, some 0, some 0, some 4])] := rfl

/-- C3: the segmenter's output contains exactly the pairs `(i, i + j)` with
`i` in `[0, N)`, `j` in `[0, 30)`, and a clipped slice sum over one of the
two reference channels exceeding the threshold; and the output is strictly
ordered ascending by start index, then by window length. -/
theorem segmenter_matches_reference_definition (vx vy : List ℤ) (thr : ℤ) :
    (∀ p : Nat × Nat, p ∈ get_start_to_end_list vx vy thr ↔
      ∃ i j, i < vx.length ∧ j < 30 ∧ p = (i, i + j) ∧
        (sumSlice vx i (i + j) > thr ∨ sumSlice vy i (i + j) > thr)) ∧
    List.Pairwise (fun p q : Nat × Nat => p.1 < q.1 ∨ (p.1 = q.1 ∧ p.2 < q.2))
      (get_start_to_end_list vx vy thr) :=
  ⟨mem_get_start_to_end_list vx vy thr, get_start_to_end_list_pairwise vx vy thr⟩

/-- C4 counterexample: with one delta row (`N = 1`), the range `(0, 2)` is
produced, whose end index is not in `[0, 1)`: emitted end indices are not
clipped at the number of delta rows. -/
theorem segment_range_bound_counterexample :
    ¬ (∀ p ∈ get_start_to_end_list [(1:ℤ)] [0] 0, p.1 < 1 ∧ p.2 < 1) := by decide

/-- C4 amended: every produced range has its start index in `[0, N)` and its
end index in `[start, start + 30)`; the end index may exceed `N − 1` because
windows are clipped only inside the slice sums, not in the emitted pair. -/
theorem segment_range_bounds (vx vy : List ℤ) (thr : ℤ) (p : Nat × Nat)
    (hp : p ∈ get_start_to_end_list vx vy thr) :
    p.1 < vx.length ∧ p.1 ≤ p.2 ∧ p.2 < p.1 + 30 := by
  rcases (mem_get_start_to_end_list vx vy thr p).mp hp with ⟨i, j, hi, hj, rfl, _⟩
  exact ⟨hi, by omega, by omega⟩

/-- Witness for the amended C4 at the produced range `(0, 1)` of a
one-element reference channel. -/
theorem segment_range_bounds_witness :
    ((0, 1) : Nat × Nat).1 < 1 ∧ ((0, 1) : Nat × Nat).1 ≤ ((0, 1) : Nat × Nat).2 ∧
      ((0, 1) : Nat × Nat).2 < ((0, 1) : Nat × Nat).1 + 30 :=
  segment_range_bounds [(1:ℤ)] [0] 0 (0, 1) (by decide)

/-- C5 counterexample: in the channel `[0, 1]` the delta at index 1 is
positive and threshold is 0, yet the length-1 window starting at index 0
(at or before index 1) does not qualify — its slice sum is 0, not positive. -/
theorem threshold_zero_saturation_counterexample :
    (0:ℤ) < List.getD [0, 1] 1 0 ∧
    ((0, 1) : Nat × Nat) ∉ get_start_to_end_list [(0:ℤ), 1] [0, 0] 0 := by decide

/-- C5 amended: with threshold 0 and a reference channel of nonnegative
deltas with a positive delta at index `p`, every window `(i, i + j)` with
window length `j < 30` that covers `p` (`i ≤ p < i + j`) qualifies. -/
theorem threshold_zero_saturation_covering (vx vy : List ℤ) (p i j : Nat) (c : ℤ)
    (hv : ∀ q ∈ vx, 0 ≤ q) (hp : vx[p]? = some c) (hc : 0 < c)
    (hip : i ≤ p) (hpj : p < i + j) (hj : j < 30) :
    (i, i + j) ∈ get_start_to_end_list vx vy 0 := by
  have hplen : p < vx.length := by
    by_contra h
    rw [List.getElem?_eq_none (by omega)] at hp
    cases hp
  refine (mem_get_start_to_end_list vx vy 0 (i, i + j)).mpr
    ⟨i, j, by omega, hj, rfl, ?_⟩
  left
  show sumSlice vx i (i + j) > 0
  unfold sumSlice
  have hd : (i + j) - i = j := by omega
  rw [hd]
  have hsub : ∀ q ∈ (vx.drop i).take j, 0 ≤ q := fun q hq =>
    hv q (List.drop_subset i vx (List.take_subset j _ hq))
  have hcmem : c ∈ (vx.drop i).take j := by
    refine List.mem_iff_getElem?.mpr ⟨p - i, ?_⟩
    rw [List.getElem?_take_of_lt (by omega), List.getElem?_drop]
    have hpi : i + (p - i) = p := by omega
    rw [hpi, hp]
  have hle := List.single_le_sum hsub c hcmem
  omega

/-- Witness for the amended C5: the window `(0, 1)` over the channel `[1]`. -/
theorem threshold_zero_saturation_covering_witness :
    ((0, 0 + 1) : Nat × Nat) ∈ get_start_to_end_list [(1:ℤ)] [] 0 :=
  threshold_zero_saturation_covering [(1:ℤ)] [] 0 0 1 1 (by decide) rfl
    (by decide) (by decide) (by decide) (by decide)

/-- C6: delta computation on a zero-row table fails with the empty-input
error and produces no output table; on any table with rows it returns an
output table and raises no error. -/
theorem empty_input_raises (t : Table) :
    (nRows t = 0 →
      get_table_of_deltas_between_time_stamps_in_all_kps t =
        .error "The input DataFrame is empty.") ∧
    (nRows t ≠ 0 →
      ∃ res, get_table_of_deltas_between_time_stamps_in_all_kps t = .ok res) := by
  constructor
  · intro h
    unfold get_table_of_deltas_between_time_stamps_in_all_kps isEmptyTable
    rw [if_pos (by simp [h])]
  · intro h
    refine ⟨t.map fun c => (c.1, (scanKp c.2 (nRows t - 1) 0 0 0).1), ?_⟩
    unfold get_table_of_deltas_between_time_stamps_in_all_kps isEmptyTable
    rw [if_neg (by simp [h])]

/-- Witness for C6: the empty table errors, a one-column two-row table
succeeds. -/
theorem empty_input_raises_witness :
    get_table_of_deltas_between_time_stamps_in_all_kps [] =
      .error "The input DataFrame is empty." ∧
    ∃ res, get_table_of_deltas_between_time_stamps_in_all_kps [("a", [1, 2])] =
      .ok res :=
  ⟨(empty_input_raises []).1 rfl, (empty_input_raises [("a", [1, 2])]).2 (by decide)⟩

/-- C7: for the single-channel input `[3, 0, 0, 0, 7]`, delta computation
returns `[0, 0, 0, 4]`, and the zero-run diagnostic recorded at the bridging
transition (index 3) is 3. -/
theorem zero_run_counting :
    get_table_of_deltas_between_time_stamps_in_all_kps [("kp", [3, 0, 0, 0, 7])] =
      .ok [("kp", [some 0, some 0, some 0, some 4])] ∧
    counter_of_all_zeros_in_a_row_for_all_kps [("kp", [3, 0, 0, 0, 7])] =
      [("kp", [(3, 3)])] :=
  ⟨rfl, rfl⟩

/-- C8: aggregation keys rows by start index alone: when the ranges with
start index 2 are `(2, 4)` then `(2, 7)` in that order, the row keyed 2
holds the label "2-7" and, for every channel, the sum of that channel's
deltas over `[2, 7)` — the later range overwrites the earlier one. -/
theorem aggregation_overwrite (ranges : List (Nat × Nat)) (col : List ℤ)
    (hfilter : ranges.filter (fun p => p.1 == 2) = [(2, 4), (2, 7)]) :
    List.lookup 2 (create_timestamps_column ranges) = some "2-7" ∧
    List.lookup 2 (create_column_of_sum_for_kp_in_range col ranges) =
      some (sumSlice col 2 7) := by
  constructor
  · have h := lookup_foldl_upsert
      (fun a b => toString a ++ "-" ++ toString b) ranges [] 2
    rw [hfilter] at h
    exact h
  · have h := lookup_foldl_upsert (fun a b => sumSlice col a b) ranges [] 2
    rw [hfilter] at h
    exact h

/-- Witness for C8 at the concrete range list `[(2, 4), (2, 7)]`. -/
theorem aggregation_overwrite_witness :
    List.lookup 2 (create_timestamps_column [(2, 4), (2, 7)]) = some "2-7" ∧
    List.lookup 2 (create_column_of_sum_for_kp_in_range [0, 1, 2, 3, 4, 5, 6]
        [(2, 4), (2, 7)]) =
      some (sumSlice [0, 1, 2, 3, 4, 5, 6] 2 7) :=
  aggregation_overwrite [(2, 4), (2, 7)] [0, 1, 2, 3, 4, 5, 6] (by decide)

/-- C9: a one-row table raises no error: the transition scan never runs and
the result is a delta table with the same channels, each with zero rows. -/
theorem single_row_table_delta_has_no_rows (t : Table) (h : nRows t = 1) :
    get_table_of_deltas_between_time_stamps_in_all_kps t =
      .ok (t.map fun c => (c.1, ([] : List (Option ℤ)))) := by
  unfold get_table_of_deltas_between_time_stamps_in_all_kps isEmptyTable
  rw [if_neg (by simp [h]), h]
  rfl

/-- Witness for C9 at the one-row table `[("a", [7])]`. -/
theorem single_row_table_delta_has_no_rows_witness :
    get_table_of_deltas_between_time_stamps_in_all_kps [("a", [7])] =
      .ok [("a", [])] :=
  single_row_table_delta_has_no_rows [("a", [7])] rfl

/-- C10: on nonnegative inputs the four branch guards are exhaustive and
mutually exclusive (exactly one fires per value pair), so every cell of the
returned delta table is assigned a numeric value; with a negative input no
branch fires and the cell is left unassigned (`none`), as on `[-1, 2]`. -/
theorem four_branch_totality :
    (∀ a b : ℤ, 0 ≤ a → 0 ≤ b → ∃! k : Fin 4, branchGuard k a b) ∧
    (∀ (t : Table) (res : List (String × List (Option ℤ))),
      get_table_of_deltas_between_time_stamps_in_all_kps t = .ok res →
      (∀ c ∈ t, ∀ q ∈ c.2, 0 ≤ q) →
      ∀ c ∈ res, ∀ d ∈ c.2, ∃ q : ℤ, d = some q) ∧
    get_table_of_deltas_between_time_stamps_in_all_kps [("kp", [-1, 2])] =
      .ok [("kp", [none])] := by
  refine ⟨?_, ?_, rfl⟩
  · intro a b ha hb
    rcases ha.lt_or_eq with ha1 | ha1 <;> rcases hb.lt_or_eq with hb1 | hb1
    · refine ⟨0, ⟨ha1, hb1⟩, ?_⟩
      intro y hy
      fin_cases y <;> simp only [branchGuard] at hy ⊢ <;> first | rfl | omega
    · refine ⟨3, ⟨ha1, hb1.symm⟩, ?_⟩
      intro y hy
      fin_cases y <;> simp only [branchGuard] at hy ⊢ <;> first | rfl | omega
    · refine ⟨1, ⟨ha1.symm, hb1⟩, ?_⟩
      intro y hy
      fin_cases y <;> simp only [branchGuard] at hy ⊢ <;> first | rfl | omega
    · refine ⟨2, ⟨ha1.symm, hb1.symm⟩, ?_⟩
      intro y hy
      fin_cases y <;> simp only [branchGuard] at hy ⊢ <;> first | rfl | omega
  · intro t res hres hpos c hc d hd
    have hne : isEmptyTable t = false := by
      by_cases he : isEmptyTable t
      · unfold get_table_of_deltas_between_time_stamps_in_all_kps at hres
        rw [if_pos he] at hres
        cases hres
      · simpa using he
    have hres2 : res = t.map fun c => (c.1, (scanKp c.2 (nRows t - 1) 0 0 0).1) := by
      unfold get_table_of_deltas_between_time_stamps_in_all_kps at hres
      rw [hne] at hres
      simp only [Bool.false_eq_true, if_false] at hres
      injection hres with h
      exact h.symm
    rw [hres2] at hc
    rcases List.mem_map.mp hc with ⟨c0, hc0, rfl⟩
    dsimp only at hd
    rcases List.mem_iff_getElem?.mp hd with ⟨n, hn⟩
    have hlenn := scanKp_fst_length c0.2 (nRows t - 1) 0 0 0
    have hnlt : n < nRows t - 1 := by
      rcases List.getElem?_eq_some.mp hn with ⟨hlt, _⟩
      omega
    have hv : ∀ q ∈ c0.2, 0 ≤ q := hpos c0 hc0
    have hg := scanKp_fst_get c0.2 hv (nRows t - 1) 0 n 0 0 rfl hnlt
    rw [hn] at hg
    exact ⟨deltaRuleAt c0.2 (0 + n), Option.some_inj.mp hg⟩

/-- Witness for C10's exhaustiveness part at the value pair `(3, 0)`. -/
theorem four_branch_totality_witness : ∃! k : Fin 4, branchGuard k 3 0 :=
  four_branch_totality.1 3 0 (by decide) (by decide)

end Niralysis
